import Mathlib

/-!
Verification development for the section-scoped wiki-table extraction core
of `src/data_provider/wiki.rs` (repository `samuraiexx/mona_spy`).

The node tree of the external markup parser (`parse_wiki_text::Node`) is
embedded shallowly: only the variants the core inspects (`Text`, `Link`,
`Table`) are kept, every other variant is collapsed into a single `other`
constructor, exactly as the source treats them (catch-all arms that do
nothing).  A table row is a list of cells and a cell is the list of nodes
of its inline content, mirroring `TableRow.cells` and `TableCell.content`.
Rust panics (`unwrap` on `None`, out-of-bounds slice indexing) are embedded
as `Except Failure` results.
-/

namespace MonaSpy

/-- Markup node of the external parser, restricted to the variants the core
distinguishes (`wiki.rs` lines 50-58 and 86-131); all remaining variants
behave identically there and are collapsed into `other`. -/
inductive Node where
  | text (value : String)
  | link (target : String) (text : List Node)
  | table (rows : List (List (List Node)))
  | other

/-- A table cell's inline content (`TableCell.content`). -/
abbrev Cell := List Node

/-- A table row (`TableRow.cells`). -/
abbrev Row := List Cell

/-- Both Rust panic sites of the core: `rows.iter().next().unwrap()` on a
table without rows (line 102-104) and `headers[idx]` with `idx` out of
bounds (line 117). -/
inductive Failure where
  | unwrapNone
  | indexOutOfBounds
deriving DecidableEq, Repr

/-- One promotional-code record (`struct PromotionalCode`, lines 26-33).
Equality is the derived structural equality (`PartialEq, Eq` in the
source). -/
structure PromotionalCode where
  code : Option String
  server : Option String
  reward : Option String
  discovered : Option String
  expires : Option String
deriving DecidableEq, Repr

/-- `PromotionalCode::new` (lines 35-45): all fields absent. -/
def PromotionalCode.new : PromotionalCode := ⟨none, none, none, none, none⟩

/-- The snapshot of one resource type (`struct PromotionalCodes`, lines
21-24). -/
structure PromotionalCodes where
  codes : List PromotionalCode
deriving DecidableEq, Repr

/-- Character-list prefix test, used to embed `str::contains`. -/
def isPrefixChars : List Char → List Char → Bool
  | [], _ => true
  | _ :: _, [] => false
  | p :: ps, c :: cs => p == c && isPrefixChars ps cs

/-- Character-list substring test, used to embed `str::contains`. -/
def containsSub (pat : List Char) : List Char → Bool
  | [] => isPrefixChars pat []
  | c :: rest => isPrefixChars pat (c :: rest) || containsSub pat rest

/-- Embedding of Rust's `value.contains(pattern)` substring test. -/
def strContains (value pattern : String) : Bool :=
  containsSub pattern.data value.data

/-- The section-start marker (line 88). -/
def availableMarker : String := "== Available =="

/-- The section-end marker (line 91). -/
def expiredMarker : String := "== Expired =="

/-- `get_cell_content` (lines 47-62): collect the `Text` values of a cell's
node list, recursing into the displayed text of `Link` nodes; every other
variant contributes nothing. -/
def get_cell_content : List Node → List String
  | [] => []
  | Node.text value :: rest => value :: get_cell_content rest
  | Node.link _ t :: rest => get_cell_content t ++ get_cell_content rest
  | Node.table _ :: rest => get_cell_content rest
  | Node.other :: rest => get_cell_content rest

/-- `get_cell_content_as_string` (lines 64-66): `join("")` of the collected
pieces. -/
def get_cell_content_as_string (nodes : List Node) : String :=
  String.join (get_cell_content nodes)

/-- The two marker tests applied to a `Text` node's value (lines 87-93):
first the start-marker check may set the flag, then the end-marker check
may clear it. -/
def updateAfterAvailable (after_available : Bool) (value : String) : Bool :=
  let a := if strContains value availableMarker then true else after_available
  if strContains value expiredMarker then false else a

/-- One column assignment of the record mapper (lines 117-124): assign the
flattened cell string to the field named by the header, leave the record
unchanged for an unrecognized header. -/
def applyHeader (c : PromotionalCode) (header value : String) : PromotionalCode :=
  if header = "Code" then ⟨some value, c.server, c.reward, c.discovered, c.expires⟩
  else if header = "Server" then ⟨c.code, some value, c.reward, c.discovered, c.expires⟩
  else if header = "Reward" then ⟨c.code, c.server, some value, c.discovered, c.expires⟩
  else if header = "Discovered" then ⟨c.code, c.server, c.reward, some value, c.expires⟩
  else if header = "Expires" then ⟨c.code, c.server, c.reward, c.discovered, some value⟩
  else c

/-- The inner cell loop of the record mapper (lines 114-125): cells are
paired with headers by index; `headers[idx]` with `idx` out of bounds is
the Rust panic, embedded as `Failure.indexOutOfBounds`. -/
def mapRowAux (headers : List String) : Nat → PromotionalCode → List Cell →
    Except Failure PromotionalCode
  | _, c, [] => Except.ok c
  | idx, c, cell :: rest =>
    let value := get_cell_content_as_string cell
    if h : idx < headers.length then
      mapRowAux headers (idx + 1) (applyHeader c (headers.get ⟨idx, h⟩) value) rest
    else
      Except.error Failure.indexOutOfBounds

/-- One data row of the record mapper (lines 111-127): start from
`PromotionalCode::new` and process the row's cells in order. -/
def mapRow (headers : List String) (cells : List Cell) : Except Failure PromotionalCode :=
  mapRowAux headers 0 PromotionalCode.new cells

/-- The data-row loop (lines 110-128): one record per data row, in row
order; a panic in any row aborts the whole extraction. -/
def mapRows (headers : List String) : List Row → Except Failure (List PromotionalCode)
  | [] => Except.ok []
  | row :: rest =>
    match mapRow headers row with
    | Except.error e => Except.error e
    | Except.ok c =>
      match mapRows headers rest with
      | Except.error e => Except.error e
      | Except.ok cs => Except.ok (c :: cs)

/-- Processing of a located table (lines 100-129): the first row is the
header row (`it.next().unwrap()`, a panic when the table has no rows),
the remaining rows become records. -/
def processTable : List Row → Except Failure PromotionalCodes
  | [] => Except.error Failure.unwrapNone
  | headerRow :: dataRows =>
    let headers := headerRow.map (fun cell => get_cell_content_as_string cell)
    match mapRows headers dataRows with
    | Except.error e => Except.error e
    | Except.ok codes => Except.ok ⟨codes⟩

/-- The top-level node scan of `PromotionalCodes::from` (lines 82-136):
track the `after_available` flag across `Text` nodes, process the first
`Table` met while the flag is set, ignore everything else, and yield the
empty snapshot when the scan ends. -/
def fromLoop : Bool → List Node → Except Failure PromotionalCodes
  | _, [] => Except.ok ⟨[]⟩
  | after_available, Node.text value :: rest =>
    fromLoop (updateAfterAvailable after_available value) rest
  | after_available, Node.table rows :: rest =>
    if after_available then processTable rows else fromLoop after_available rest
  | after_available, Node.link _ _ :: rest => fromLoop after_available rest
  | after_available, Node.other :: rest => fromLoop after_available rest

/-- `PromotionalCodes::from` (lines 82-136); named `fromNodes` because
`from` is a reserved word in Lean. -/
def PromotionalCodes.fromNodes (nodes : List Node) : Except Failure PromotionalCodes :=
  fromLoop false nodes

/-- The push loop of `difference` (lines 74-78): keep, in order, every
record of `self` that `other` does not contain. -/
def differenceLoop (otherCodes : List PromotionalCode) :
    List PromotionalCode → List PromotionalCode → List PromotionalCode
  | acc, [] => acc
  | acc, c :: rest =>
    if !(otherCodes.contains c) then differenceLoop otherCodes (acc ++ [c]) rest
    else differenceLoop otherCodes acc rest

/-- `PromotionalCodes::difference` (lines 73-80). -/
def PromotionalCodes.difference (self other : PromotionalCodes) : PromotionalCodes :=
  ⟨differenceLoop other.codes [] self.codes⟩

/-- `PromotionalCodes::empty` (lines 69-71). -/
def PromotionalCodes.empty (self : PromotionalCodes) : Bool :=
  self.codes.isEmpty

/-- The difference computed by `wiki_resource_change_callback` (lines
201-204): against the prior snapshot when one exists, otherwise the whole
current snapshot. -/
def callbackDifference (previous : Option PromotionalCodes)
    (current : PromotionalCodes) : PromotionalCodes :=
  match previous with
  | some p => current.difference p
  | none => current

/-- `wiki_resource_change_callback` (lines 200-211), with the notification
sink modelled as the list of emitted snapshots: nothing is emitted when the
difference is empty, otherwise the difference is emitted once. -/
def wiki_resource_change_callback (previous : Option PromotionalCodes)
    (current : PromotionalCodes) : List PromotionalCodes :=
  if (callbackDifference previous current).empty then []
  else [callbackDifference previous current]

/-- Modelled from the spec (§4.2/§8): the section table locator as the spec
words it — scan the top-level nodes with an inside-section flag that starts
false, is set by a `Text` value containing the start marker and cleared by
a `Text` value containing the end marker, and return the first table met
while the flag is set. -/
def specSectionLocator : Bool → List Node → Option (List Row)
  | _, [] => none
  | inside, Node.text value :: rest =>
    let i := if strContains value availableMarker then true else inside
    let i := if strContains value expiredMarker then false else i
    specSectionLocator i rest
  | inside, Node.table rows :: rest =>
    if inside then some rows else specSectionLocator inside rest
  | inside, Node.link _ _ :: rest => specSectionLocator inside rest
  | inside, Node.other :: rest => specSectionLocator inside rest

/-- Modelled from the spec (§4.1): the cell flattener as the spec words
it — the in-order concatenation, without separators, of `Text` values and
of the recursively flattened display content of `Link` nodes, all other
variants contributing nothing. -/
def specFlatten : List Node → String
  | [] => ""
  | Node.text value :: rest => value ++ specFlatten rest
  | Node.link _ t :: rest => specFlatten t ++ specFlatten rest
  | Node.table _ :: rest => specFlatten rest
  | Node.other :: rest => specFlatten rest

/-- The flag value after scanning a node-list prefix, for stating section
eligibility (same marker logic as `fromLoop`). -/
def sectionFlag (flag : Bool) : List Node → Bool
  | [] => flag
  | Node.text value :: rest => sectionFlag (updateAfterAvailable flag value) rest
  | Node.table _ :: rest => sectionFlag flag rest
  | Node.link _ _ :: rest => sectionFlag flag rest
  | Node.other :: rest => sectionFlag flag rest

/-- The header names the record mapper recognizes (lines 117-123). -/
def recognizedFields : List String :=
  ["Code", "Server", "Reward", "Discovered", "Expires"]

/-- Projection of the record field named by a recognized header. -/
def fieldGet (name : String) (c : PromotionalCode) : Option String :=
  if name = "Code" then c.code
  else if name = "Server" then c.server
  else if name = "Reward" then c.reward
  else if name = "Discovered" then c.discovered
  else if name = "Expires" then c.expires
  else none

/-- Folding the column assignments of one data row over (header, value)
pairs; the order-level restatement of the mapper's indexed loop. -/
def foldPairs (init : PromotionalCode) (pairs : List (String × String)) : PromotionalCode :=
  pairs.foldl (fun c p => applyHeader c p.1 p.2) init

/-- Reordering of an `n`-element list along an index map, used to state
header-permutation claims. -/
def applyPerm {α : Type} [Inhabited α] (n : Nat) (σ : Fin n → Fin n)
    (l : List α) : List α :=
  List.ofFn (fun i => l.getD (σ i).val default)

/-- The transposition of the two positions of a two-column table. -/
def swapFin2 : Fin 2 → Fin 2 := fun i => ⟨1 - i.val, by omega⟩

/-- The within-text reading of "contains a start marker not followed by an
end marker": some suffix of the text starts with the start marker and
carries no end marker after it. -/
def startNotFollowedByEnd (s : String) : Bool :=
  s.data.tails.any (fun t =>
    isPrefixChars availableMarker.data t &&
    !(containsSub expiredMarker.data (t.drop availableMarker.data.length)))

/-- Sample document tree: the section-start marker followed by a one-column
table with header `Code` and one data row, for witnesses. -/
def sampleTree : List Node :=
  [Node.text availableMarker, Node.table [[[Node.text "Code"]], [[Node.text "X"]]]]

/-- Sample record with only the code field set to `"X"`, for witnesses. -/
def pcX : PromotionalCode := ⟨some "X", none, none, none, none⟩

/-- Sample record with only the code field set to `"Y"`, for witnesses. -/
def pcY : PromotionalCode := ⟨some "Y", none, none, none, none⟩

/-! ### Snapshot differ -/

theorem differenceLoop_eq_filter (otherCodes : List PromotionalCode) :
    ∀ (cs acc : List PromotionalCode),
    differenceLoop otherCodes acc cs = acc ++ cs.filter (fun c => !(otherCodes.contains c)) := by
  intro cs
  induction cs with
  | nil => intro acc; simp [differenceLoop]
  | cons c rest ih =>
    intro acc
    by_cases h : c ∈ otherCodes <;>
      simp [differenceLoop, h, List.filter_cons, ih]

theorem difference_codes (cur prev : PromotionalCodes) :
    (cur.difference prev).codes = cur.codes.filter (fun c => !(prev.codes.contains c)) := by
  simp [PromotionalCodes.difference, differenceLoop_eq_filter]

/-- C2: `difference(current, previous)` holds exactly the records of
`current` that are structurally equal to no record of `previous`, and the
pipeline's difference with no prior snapshot is the whole current
snapshot. -/
theorem c2_difference_membership (cur prev : PromotionalCodes) (r : PromotionalCode) :
    (r ∈ (cur.difference prev).codes ↔ r ∈ cur.codes ∧ ¬ r ∈ prev.codes) ∧
    callbackDifference none cur = cur := by
  refine ⟨?_, rfl⟩
  rw [difference_codes]
  simp [List.mem_filter]

/-- C10: the difference preserves the order and multiplicity of `current`:
it is the order-preserving filter of `current`'s records by non-membership
in `previous`, and records absent from `previous` keep their full
occurrence count. -/
theorem c10_difference_order_multiplicity (cur prev : PromotionalCodes) :
    (cur.difference prev).codes = cur.codes.filter (fun c => !(prev.codes.contains c)) ∧
    (∀ r, ¬ r ∈ prev.codes → (cur.difference prev).codes.count r = cur.codes.count r) := by
  refine ⟨difference_codes cur prev, ?_⟩
  intro r hr
  rw [difference_codes]
  refine List.count_filter ?_
  simp [hr]

/-- Witness for C10 at a concrete input: a record occurring twice in the
current snapshot and absent from the previous one occurs twice in the
difference. -/
theorem c10_witness :
    ¬ pcX ∈ (PromotionalCodes.mk [pcY]).codes ∧
    ((PromotionalCodes.mk [pcX, pcX]).difference ⟨[pcY]⟩).codes.count pcX =
      (PromotionalCodes.mk [pcX, pcX]).codes.count pcX := by
  refine ⟨by decide, ?_⟩
  exact (c10_difference_order_multiplicity ⟨[pcX, pcX]⟩ ⟨[pcY]⟩).2 pcX (by decide)

/-! ### Change notification -/

/-- C8: per extraction pass the notification sink either receives nothing
or receives the computed difference exactly once, and in the latter case
that difference is non-empty. -/
theorem c8_callback_at_most_once (previous : Option PromotionalCodes)
    (current : PromotionalCodes) :
    wiki_resource_change_callback previous current = [] ∨
    (wiki_resource_change_callback previous current = [callbackDifference previous current] ∧
      (callbackDifference previous current).empty = false) := by
  unfold wiki_resource_change_callback
  by_cases h : (callbackDifference previous current).empty
  · left; simp [h]
  · right; simp [h]

/-! ### Marker logic -/

/-- C9: a `Text` value containing both markers always leaves the locator
state `Outside`, whatever the order of the two markers inside the text,
because the end-marker check runs after the start-marker check. -/
theorem c9_both_markers_outside (after_available : Bool) (value : String)
    (h1 : strContains value availableMarker = true)
    (h2 : strContains value expiredMarker = true) :
    updateAfterAvailable after_available value = false ∧
    sectionFlag after_available [Node.text value] = false := by
  simp [sectionFlag, updateAfterAvailable, h1, h2]

/-- Witness for C9 at concrete inputs: both marker orders inside one text
value leave the state `Outside`. -/
theorem c9_witness :
    (strContains "== Available == then == Expired ==" availableMarker = true ∧
      updateAfterAvailable true "== Available == then == Expired ==" = false) ∧
    (strContains "== Expired == then == Available ==" availableMarker = true ∧
      updateAfterAvailable true "== Expired == then == Available ==" = false) := by
  refine ⟨⟨rfl, ?_⟩, ⟨rfl, ?_⟩⟩
  · exact (c9_both_markers_outside true "== Available == then == Expired ==" rfl rfl).1
  · exact (c9_both_markers_outside true "== Expired == then == Available ==" rfl rfl).1

/-! ### Section table locator -/

theorem fromLoop_eq_locator :
    ∀ (ns : List Node) (flag : Bool),
    fromLoop flag ns =
      (match specSectionLocator flag ns with
       | none => Except.ok ⟨[]⟩
       | some rows => processTable rows) := by
  intro ns
  induction ns with
  | nil => intro flag; simp [fromLoop, specSectionLocator]
  | cons n rest ih =>
    intro flag
    cases n with
    | text value => simpa [fromLoop, specSectionLocator, updateAfterAvailable] using ih _
    | table rows =>
      by_cases h : flag <;> simp [fromLoop, specSectionLocator, h, ih]
    | link target t => simpa [fromLoop, specSectionLocator] using ih flag
    | other => simpa [fromLoop, specSectionLocator] using ih flag

/-- C3: parsing returns the record mapping of the first table found while
the inside-section flag is true — the flag starting false, set by a text
value containing the start marker and cleared by one containing the end
marker — and the empty snapshot when no such table exists. -/
theorem c3_locator_refinement (ns : List Node) :
    PromotionalCodes.fromNodes ns =
      (match specSectionLocator false ns with
       | none => Except.ok ⟨[]⟩
       | some rows => processTable rows) :=
  fromLoop_eq_locator ns false

/-! ### Record mapper: success and failure characterization -/

theorem mapRowAux_ok (headers : List String) :
    ∀ (cells : List Cell) (idx : Nat) (c : PromotionalCode),
    idx + cells.length ≤ headers.length →
    mapRowAux headers idx c cells =
      Except.ok (foldPairs c (((headers.drop idx).take cells.length).zip
        (cells.map get_cell_content_as_string))) := by
  intro cells
  induction cells with
  | nil => intro idx c h; simp [mapRowAux, foldPairs]
  | cons cell rest ih =>
    intro idx c h
    have hidx : idx < headers.length := by simp at h; omega
    have hrec : idx + 1 + rest.length ≤ headers.length := by simp at h; omega
    simp only [mapRowAux, dif_pos hidx]
    rw [ih (idx + 1) _ hrec, List.drop_eq_getElem_cons hidx, List.length_cons,
      List.take_succ_cons, List.map_cons, List.zip_cons_cons]
    rfl

theorem mapRowAux_err (headers : List String) :
    ∀ (cells : List Cell) (idx : Nat) (c : PromotionalCode),
    idx ≤ headers.length → headers.length < idx + cells.length →
    mapRowAux headers idx c cells = Except.error Failure.indexOutOfBounds := by
  intro cells
  induction cells with
  | nil => intro idx c h1 h2; exact absurd h2 (by simpa using h1)
  | cons cell rest ih =>
    intro idx c h1 h2
    by_cases hidx : idx < headers.length
    · simp only [mapRowAux, dif_pos hidx]
      exact ih (idx + 1) _ (by omega) (by simp at h2; omega)
    · simp [mapRowAux, dif_neg hidx]

theorem mapRow_ok (headers : List String) (cells : List Cell)
    (h : cells.length ≤ headers.length) :
    mapRow headers cells = Except.ok (foldPairs PromotionalCode.new
      ((headers.take cells.length).zip (cells.map get_cell_content_as_string))) := by
  simpa [mapRow] using mapRowAux_ok headers cells 0 PromotionalCode.new (by omega)

theorem mapRow_err (headers : List String) (cells : List Cell)
    (h : headers.length < cells.length) :
    mapRow headers cells = Except.error Failure.indexOutOfBounds :=
  mapRowAux_err headers cells 0 PromotionalCode.new (Nat.zero_le _) (by omega)

theorem mapRows_ok (headers : List String) :
    ∀ (rows : List Row), (∀ r ∈ rows, r.length ≤ headers.length) →
    mapRows headers rows = Except.ok (rows.map (fun r =>
      foldPairs PromotionalCode.new
        ((headers.take r.length).zip (r.map get_cell_content_as_string)))) := by
  intro rows
  induction rows with
  | nil => intro h; simp [mapRows]
  | cons row rest ih =>
    intro h
    have e1 := mapRow_ok headers row (h row (List.mem_cons_self row rest))
    have e2 := ih (fun r hr => h r (List.mem_cons_of_mem _ hr))
    simp [mapRows, e1, e2]

theorem mapRows_err (headers : List String) :
    ∀ (rows : List Row), (∃ r ∈ rows, headers.length < r.length) →
    mapRows headers rows = Except.error Failure.indexOutOfBounds := by
  intro rows
  induction rows with
  | nil => rintro ⟨r, hr, _⟩; simp at hr
  | cons row rest ih =>
    rintro ⟨r, hr, hlen⟩
    rcases List.mem_cons.mp hr with rfl | hr'
    · simp [mapRows, mapRow_err headers r hlen]
    · by_cases hrow : headers.length < row.length
      · simp [mapRows, mapRow_err headers row hrow]
      · push_neg at hrow
        simp [mapRows, mapRow_ok headers row hrow, ih ⟨r, hr', hlen⟩]

/-- C1 (amended): cell flattening and table location never fail, and the
failures originating inside the core are exactly two — the unwrap on a
located table with no rows at all, and the out-of-bounds column access
when a data row has more cells than the header row; when the located
table avoids both conditions (or no table is located), extraction
succeeds. -/
theorem c1_failure_modes (ns : List Node) :
    (specSectionLocator false ns = none → PromotionalCodes.fromNodes ns = Except.ok ⟨[]⟩) ∧
    (specSectionLocator false ns = some [] →
      PromotionalCodes.fromNodes ns = Except.error Failure.unwrapNone) ∧
    (∀ hr drs, specSectionLocator false ns = some (hr :: drs) →
      (∀ row ∈ drs, row.length ≤ hr.length) →
      ∃ r, PromotionalCodes.fromNodes ns = Except.ok r) ∧
    (∀ hr drs, specSectionLocator false ns = some (hr :: drs) →
      (∃ row ∈ drs, hr.length < row.length) →
      PromotionalCodes.fromNodes ns = Except.error Failure.indexOutOfBounds) := by
  have key : PromotionalCodes.fromNodes ns =
      (match specSectionLocator false ns with
       | none => Except.ok ⟨[]⟩
       | some rows => processTable rows) := fromLoop_eq_locator ns false
  refine ⟨?_, ?_, ?_, ?_⟩
  · intro h; rw [key, h]
  · intro h; rw [key, h]; rfl
  · intro hr drs h hb
    rw [key, h]
    have hlen : ∀ row ∈ drs,
        row.length ≤ (hr.map (fun cell => get_cell_content_as_string cell)).length := by
      simpa using hb
    simp [processTable, mapRows_ok _ drs hlen]
  · rintro hr drs h ⟨row, hrow, hlen⟩
    rw [key, h]
    have hwide : ∃ r ∈ drs,
        (hr.map (fun cell => get_cell_content_as_string cell)).length < r.length :=
      ⟨row, hrow, by simpa using hlen⟩
    simp [processTable, mapRows_err _ drs hwide]

/-- Witness for C1 at a concrete input: a well-formed located table (no
missing header row, no over-wide data row) extracts successfully. -/
theorem c1_witness : ∃ r, PromotionalCodes.fromNodes sampleTree = Except.ok r := by
  refine (c1_failure_modes sampleTree).2.2.1 [[Node.text "Code"]] [[[Node.text "X"]]] rfl ?_
  intro row hrow
  simp only [List.mem_singleton] at hrow
  subst hrow
  decide

/-- C1 counterexample: on a tree whose located table has no rows at all the
extraction fails with the unwrap failure, which is not the out-of-bounds
column access, so the out-of-bounds access is not the only failure mode. -/
theorem c1_counterexample :
    PromotionalCodes.fromNodes [Node.text availableMarker, Node.table []] =
      Except.error Failure.unwrapNone ∧
    Failure.unwrapNone ≠ Failure.indexOutOfBounds := ⟨rfl, by decide⟩

/-! ### Cell flattener -/

theorem joinCons (s : String) (l : List String) :
    String.join (s :: l) = s ++ String.join l := by
  apply String.ext; simp [String.join_eq]

theorem joinAppend (a b : List String) :
    String.join (a ++ b) = String.join a ++ String.join b := by
  apply String.ext; simp [String.join_eq]

/-- C5: the cell flattener is the in-order, separator-free concatenation of
`Text` values and of the recursively flattened display content of `Link`
nodes, every other node variant contributing nothing. -/
theorem c5_flattener (ns : List Node) :
    get_cell_content_as_string ns = specFlatten ns := by
  unfold get_cell_content_as_string
  induction ns using get_cell_content.induct with
  | case1 => simp only [get_cell_content, specFlatten]; rfl
  | case2 value rest ih =>
    simp only [get_cell_content, specFlatten, joinCons, ih]
  | case3 target t rest iht ihrest =>
    simp only [get_cell_content, specFlatten, joinAppend, iht, ihrest]
  | case4 rows rest ih => simp only [get_cell_content, specFlatten, ih]
  | case5 rest ih => simp only [get_cell_content, specFlatten, ih]

/-! ### Record mapper: field-level characterization -/

theorem code_applyHeader (c : PromotionalCode) (h v : String) :
    (applyHeader c h v).code = if h = "Code" then some v else c.code := by
  unfold applyHeader; split_ifs <;> simp_all

theorem server_applyHeader (c : PromotionalCode) (h v : String) :
    (applyHeader c h v).server = if h = "Server" then some v else c.server := by
  unfold applyHeader; split_ifs <;> simp_all

theorem reward_applyHeader (c : PromotionalCode) (h v : String) :
    (applyHeader c h v).reward = if h = "Reward" then some v else c.reward := by
  unfold applyHeader; split_ifs <;> simp_all

theorem discovered_applyHeader (c : PromotionalCode) (h v : String) :
    (applyHeader c h v).discovered = if h = "Discovered" then some v else c.discovered := by
  unfold applyHeader; split_ifs <;> simp_all

theorem expires_applyHeader (c : PromotionalCode) (h v : String) :
    (applyHeader c h v).expires = if h = "Expires" then some v else c.expires := by
  unfold applyHeader; split_ifs <;> simp_all

theorem fieldGet_applyHeader (name : String) (hname : name ∈ recognizedFields)
    (c : PromotionalCode) (h v : String) :
    fieldGet name (applyHeader c h v) = if h = name then some v else fieldGet name c := by
  simp only [recognizedFields, List.mem_cons, List.not_mem_nil, or_false] at hname
  rcases hname with rfl | rfl | rfl | rfl | rfl
  · exact code_applyHeader c h v
  · exact server_applyHeader c h v
  · exact reward_applyHeader c h v
  · exact discovered_applyHeader c h v
  · exact expires_applyHeader c h v

theorem fieldGet_new (name : String) (hname : name ∈ recognizedFields) :
    fieldGet name PromotionalCode.new = none := by
  simp only [recognizedFields, List.mem_cons, List.not_mem_nil, or_false] at hname
  rcases hname with rfl | rfl | rfl | rfl | rfl <;> rfl

theorem fieldGet_foldPairs (name : String) (hname : name ∈ recognizedFields) :
    ∀ (pairs : List (String × String)) (init : PromotionalCode),
    fieldGet name (foldPairs init pairs) =
      (match (pairs.filter (fun p => p.1 == name)).getLast? with
       | some p => some p.2
       | none => fieldGet name init) := by
  intro pairs
  induction pairs using List.reverseRecOn with
  | nil => intro init; simp [foldPairs]
  | append_singleton ps p ih =>
    intro init
    simp only [foldPairs, List.foldl_append, List.foldl_cons, List.foldl_nil]
    have happ : fieldGet name (applyHeader (foldPairs init ps) p.1 p.2) =
        if p.1 = name then some p.2 else fieldGet name (foldPairs init ps) :=
      fieldGet_applyHeader name hname _ _ _
    rw [show List.foldl (fun c q => applyHeader c q.1 q.2) init ps = foldPairs init ps from rfl] at *
    rw [happ, List.filter_append]
    by_cases hp : p.1 = name
    · have : List.filter (fun q => q.1 == name) [p] = [p] := by simp [hp]
      rw [this, List.getLast?_concat, if_pos hp]
    · have : List.filter (fun q => q.1 == name) [p] = [] := by simp [hp]
      rw [this, List.append_nil, if_neg hp, ih]

/-- C4: cells are paired positionally with headers (the zip of the header
prefix of the row's length with the flattened cells), a recognized header
assigns the flattened cell to its field, an unrecognized header assigns
nothing, and a row shorter than the header leaves every field whose header
lies beyond the row's cell count absent. -/
theorem c4_positional_mapping (headers : List String) (cells : List Cell) :
    (cells.length ≤ headers.length →
      mapRow headers cells = Except.ok (foldPairs PromotionalCode.new
        ((headers.take cells.length).zip (cells.map get_cell_content_as_string)))) ∧
    (∀ c h v, ¬ h ∈ recognizedFields → applyHeader c h v = c) ∧
    (∀ name r, name ∈ recognizedFields → ¬ name ∈ headers.take cells.length →
      cells.length ≤ headers.length → mapRow headers cells = Except.ok r →
      fieldGet name r = none) := by
  refine ⟨fun h => mapRow_ok headers cells h, ?_, ?_⟩
  · intro c h v hh
    simp only [recognizedFields, List.mem_cons, List.not_mem_nil, or_false] at hh
    push_neg at hh
    obtain ⟨h1, h2, h3, h4, h5⟩ := hh
    simp [applyHeader, h1, h2, h3, h4, h5]
  · intro name r hname hnot hlen hmap
    rw [mapRow_ok headers cells hlen] at hmap
    have hr : r = foldPairs PromotionalCode.new
        ((headers.take cells.length).zip (cells.map get_cell_content_as_string)) := by
      cases hmap; rfl
    subst hr
    rw [fieldGet_foldPairs name hname]
    have hfil : ((headers.take cells.length).zip
        (cells.map get_cell_content_as_string)).filter (fun p => p.1 == name) = [] := by
      rw [List.filter_eq_nil_iff]
      rintro ⟨x, y⟩ hp hbeq
      have hx : x ∈ headers.take cells.length := (List.of_mem_zip hp).1
      have : x = name := by simpa using hbeq
      exact hnot (this ▸ hx)
    rw [hfil]
    exact fieldGet_new name hname

/-- Witness for C4 at a concrete input: a one-cell row under a two-column
header maps by position, and the field of the unreached second header stays
absent. -/
theorem c4_witness :
    mapRow ["Code", "Server"] [[Node.text "X"]] =
      Except.ok (foldPairs PromotionalCode.new
        ((["Code", "Server"].take 1).zip ([[Node.text "X"]].map get_cell_content_as_string))) ∧
    fieldGet "Server" pcX = none := by
  constructor
  · exact (c4_positional_mapping ["Code", "Server"] [[Node.text "X"]]).1 (by decide)
  · refine (c4_positional_mapping ["Code", "Server"] [[Node.text "X"]]).2.2 "Server" pcX
      (by decide) (by decide) (by decide) ?_
    simp [mapRow, mapRowAux, applyHeader, get_cell_content_as_string, get_cell_content, pcX]
    exact ⟨rfl, rfl, rfl, rfl, rfl⟩

/-! ### Record mapper: header-permutation invariance -/

theorem promoCode_ext (a b : PromotionalCode) (h1 : a.code = b.code)
    (h2 : a.server = b.server) (h3 : a.reward = b.reward)
    (h4 : a.discovered = b.discovered) (h5 : a.expires = b.expires) : a = b := by
  cases a; cases b; simp_all

theorem perm_eq_of_length_le_one {α : Type} :
    ∀ (l l' : List α), l.Perm l' → l.length ≤ 1 → l = l' := by
  intro l l' h hl
  rcases l with _ | ⟨a, _ | ⟨b, t⟩⟩
  · exact (List.perm_nil.mp h.symm).symm
  · exact List.singleton_perm.mp h
  · simp at hl

theorem filter_key_length_le_one (l : List (String × String)) (name : String)
    (hnd : (l.map Prod.fst).Nodup) :
    (l.filter (fun p => p.1 == name)).length ≤ 1 := by
  have h1 : (l.filter (fun p => p.1 == name)).length = List.countP (fun p => p.1 == name) l :=
    (List.countP_eq_length_filter _ _).symm
  have h2 : List.countP (fun x => x == name) (l.map Prod.fst) =
      List.countP (fun p => p.1 == name) l := List.countP_map _ _ _
  rw [h1, ← h2, ← List.count_eq_countP]
  exact List.nodup_iff_count_le_one.mp hnd name

theorem foldPairs_perm (l l' : List (String × String)) (init : PromotionalCode)
    (hperm : l.Perm l') (hnd : (l.map Prod.fst).Nodup) :
    foldPairs init l = foldPairs init l' := by
  have main : ∀ name, name ∈ recognizedFields →
      fieldGet name (foldPairs init l) = fieldGet name (foldPairs init l') := by
    intro name hname
    rw [fieldGet_foldPairs name hname l init, fieldGet_foldPairs name hname l' init,
      perm_eq_of_length_le_one _ _ (hperm.filter _) (filter_key_length_le_one l name hnd)]
  exact promoCode_ext _ _ (main "Code" (by simp [recognizedFields]))
    (main "Server" (by simp [recognizedFields])) (main "Reward" (by simp [recognizedFields]))
    (main "Discovered" (by simp [recognizedFields])) (main "Expires" (by simp [recognizedFields]))

theorem zip_ofFn {α β : Type} :
    ∀ {n : Nat} (f : Fin n → α) (g : Fin n → β),
    (List.ofFn f).zip (List.ofFn g) = List.ofFn (fun i => (f i, g i)) := by
  intro n
  induction n with
  | zero => intro f g; simp
  | succ m ih => intro f g; simp [List.ofFn_succ, ih]

theorem ofFn_comp_perm {α : Type} (n : Nat) (σ : Fin n → Fin n)
    (hbij : Function.Bijective σ) (p : Fin n → α) :
    (List.ofFn (fun i => p (σ i))).Perm (List.ofFn p) := by
  rw [List.ofFn_eq_map, List.ofFn_eq_map]
  have : List.map (fun i => p (σ i)) (List.finRange n) =
      List.map p (List.map σ (List.finRange n)) := by
    rw [List.map_map]; rfl
  rw [this]
  refine List.Perm.map p ?_
  refine (List.perm_ext_iff_of_nodup ?_ ?_).mpr ?_
  · exact List.Nodup.map hbij.injective (List.nodup_finRange n)
  · exact List.nodup_finRange n
  · intro a
    simp only [List.mem_map, List.mem_finRange, iff_true]
    obtain ⟨b, hb⟩ := hbij.surjective a
    exact ⟨b, trivial, hb⟩

theorem ofFn_getD {α : Type} [Inhabited α] {n : Nat} (l : List α) (hlen : l.length = n) :
    List.ofFn (fun i : Fin n => l.getD i.1 default) = l := by
  apply List.ext_get
  · simp [hlen]
  · intro i h1 h2
    rw [List.get_ofFn]
    have hi : i < l.length := h2
    simp [List.getD_eq_getElem?_getD, List.getElem?_eq_getElem hi]

theorem map_eq_ofFn_getD {α β : Type} [Inhabited α] {n : Nat} (l : List α) (f : α → β)
    (hlen : l.length = n) :
    l.map f = List.ofFn (fun j : Fin n => f (l.getD j.1 default)) := by
  conv_lhs => rw [← ofFn_getD l hlen]
  rw [List.map_ofFn]
  rfl

theorem map_applyPerm_eq_ofFn {α β : Type} [Inhabited α] {n : Nat} (σ : Fin n → Fin n)
    (l : List α) (f : α → β) :
    (applyPerm n σ l).map f = List.ofFn (fun i : Fin n => f (l.getD (σ i).1 default)) := by
  simp only [applyPerm, List.map_ofFn]
  rfl

theorem length_applyPerm {α : Type} [Inhabited α] (n : Nat) (σ : Fin n → Fin n)
    (l : List α) : (applyPerm n σ l).length = n := by
  simp [applyPerm]

theorem mapRow_perm (n : Nat) (σ : Fin n → Fin n) (hr : Row)
    (hbij : Function.Bijective σ) (hhr : hr.length = n)
    (hnodup : (hr.map (fun cell => get_cell_content_as_string cell)).Nodup)
    (row : Row) (hrow : row.length = n) :
    mapRow ((applyPerm n σ hr).map (fun cell => get_cell_content_as_string cell))
        (applyPerm n σ row) =
      mapRow (hr.map (fun cell => get_cell_content_as_string cell)) row := by
  have hPh : ((applyPerm n σ hr).map (fun cell => get_cell_content_as_string cell)).length = n := by
    simp [length_applyPerm]
  have hPr : (applyPerm n σ row).length = n := length_applyPerm n σ row
  have hh : (hr.map (fun cell => get_cell_content_as_string cell)).length = n := by simp [hhr]
  rw [mapRow_ok _ _ (by rw [hPr, hPh]), mapRow_ok _ _ (by rw [hrow, hh])]
  have e1 : ((applyPerm n σ hr).map (fun cell => get_cell_content_as_string cell)).take
      (applyPerm n σ row).length =
      (applyPerm n σ hr).map (fun cell => get_cell_content_as_string cell) :=
    List.take_of_length_le (by rw [hPr, hPh])
  have e2 : (hr.map (fun cell => get_cell_content_as_string cell)).take row.length =
      hr.map (fun cell => get_cell_content_as_string cell) :=
    List.take_of_length_le (by rw [hrow, hh])
  rw [e1, e2, map_applyPerm_eq_ofFn, map_applyPerm_eq_ofFn,
    map_eq_ofFn_getD hr _ hhr, map_eq_ofFn_getD row _ hrow, zip_ofFn, zip_ofFn]
  congr 1
  refine foldPairs_perm _ _ _ ?_ ?_
  · exact ofFn_comp_perm n σ hbij
      (fun j => (get_cell_content_as_string (hr.getD j.1 default),
        get_cell_content_as_string (row.getD j.1 default)))
  · rw [List.map_ofFn]
    have hA : List.ofFn (fun j : Fin n => get_cell_content_as_string (hr.getD j.1 default)) =
        hr.map (fun cell => get_cell_content_as_string cell) :=
      (map_eq_ofFn_getD hr _ hhr).symm
    have hnodupA : (List.ofFn
        (fun j : Fin n => get_cell_content_as_string (hr.getD j.1 default))).Nodup := by
      rw [hA]; exact hnodup
    exact ((ofFn_comp_perm n σ hbij
      (fun j => get_cell_content_as_string (hr.getD j.1 default))).symm).nodup hnodupA

theorem mapRows_perm (n : Nat) (σ : Fin n → Fin n) (hr : Row)
    (hbij : Function.Bijective σ) (hhr : hr.length = n)
    (hnodup : (hr.map (fun cell => get_cell_content_as_string cell)).Nodup) :
    ∀ (rows : List Row), (∀ r ∈ rows, r.length = n) →
    mapRows ((applyPerm n σ hr).map (fun cell => get_cell_content_as_string cell))
        (rows.map (applyPerm n σ)) =
      mapRows (hr.map (fun cell => get_cell_content_as_string cell)) rows := by
  intro rows
  induction rows with
  | nil => intro h; rfl
  | cons row rest ih =>
    intro h
    simp only [List.map_cons, mapRows]
    rw [mapRow_perm n σ hr hbij hhr hnodup row (h row (List.mem_cons_self row rest)),
      ih (fun r hr' => h r (List.mem_cons_of_mem _ hr'))]

/-- C7 (amended): the record mapper is header-order-independent whenever
the flattened header names are pairwise distinct: permuting the header row
and every full data row by the same permutation yields identical records. -/
theorem c7_header_permutation (n : Nat) (σ : Fin n → Fin n) (hr : Row) (drs : List Row)
    (hbij : Function.Bijective σ) (hhr : hr.length = n)
    (hdrs : ∀ row ∈ drs, row.length = n)
    (hnodup : (hr.map (fun cell => get_cell_content_as_string cell)).Nodup) :
    processTable (applyPerm n σ hr :: drs.map (applyPerm n σ)) = processTable (hr :: drs) := by
  simp only [processTable]
  rw [mapRows_perm n σ hr hbij hhr hnodup drs hdrs]

/-- Witness for C7 at a concrete input: transposing a two-column header
with distinct names together with the single data row leaves the extracted
records unchanged. -/
theorem c7_witness :
    processTable (applyPerm 2 swapFin2 [[Node.text "Code"], [Node.text "Server"]] ::
      [[[Node.text "A"], [Node.text "B"]]].map (applyPerm 2 swapFin2)) =
    processTable [[[Node.text "Code"], [Node.text "Server"]],
      [[Node.text "A"], [Node.text "B"]]] := by
  have hnodup : (([[Node.text "Code"], [Node.text "Server"]] : Row).map
      (fun cell => get_cell_content_as_string cell)).Nodup := by
    have : (([[Node.text "Code"], [Node.text "Server"]] : Row).map
        (fun cell => get_cell_content_as_string cell)) = ["Code", "Server"] := by
      simp [get_cell_content_as_string, get_cell_content]
      exact ⟨rfl, rfl⟩
    rw [this]; decide
  exact c7_header_permutation 2 swapFin2 [[Node.text "Code"], [Node.text "Server"]]
    [[[Node.text "A"], [Node.text "B"]]] (by decide) rfl (by decide) hnodup

/-- C7 counterexample: with a duplicated recognized header (`Code`, `Code`)
transposing header and data row together changes the extracted record (the
last assignment wins, and the transposition swaps which cell is last), so
the mapper is not header-order-independent for every table. -/
theorem c7_counterexample :
    ¬ (∀ (n : Nat) (σ : Fin n → Fin n) (hr : Row) (drs : List Row),
        Function.Bijective σ → hr.length = n → (∀ row ∈ drs, row.length = n) →
        processTable (applyPerm n σ hr :: drs.map (applyPerm n σ)) =
          processTable (hr :: drs)) := by
  intro hclaim
  have h := hclaim 2 swapFin2 [[Node.text "Code"], [Node.text "Code"]]
    [[[Node.text "A"], [Node.text "B"]]] (by decide) rfl (by decide)
  have hperm : applyPerm 2 swapFin2 ([[Node.text "Code"], [Node.text "Code"]] : Row) =
      [[Node.text "Code"], [Node.text "Code"]] := by
    simp [applyPerm, swapFin2, List.ofFn_succ]
  have hpermRow : applyPerm 2 swapFin2 ([[Node.text "A"], [Node.text "B"]] : Row) =
      [[Node.text "B"], [Node.text "A"]] := by
    simp [applyPerm, swapFin2, List.ofFn_succ]
  rw [hperm] at h
  simp only [List.map_cons, List.map_nil, hpermRow] at h
  have hL : processTable [[[Node.text "Code"], [Node.text "Code"]],
      [[Node.text "B"], [Node.text "A"]]] =
      Except.ok ⟨[⟨some "A", none, none, none, none⟩]⟩ := by
    simp [processTable, mapRows, mapRow, mapRowAux, applyHeader,
      get_cell_content_as_string, get_cell_content]
    rfl
  have hR : processTable [[[Node.text "Code"], [Node.text "Code"]],
      [[Node.text "A"], [Node.text "B"]]] =
      Except.ok ⟨[⟨some "B", none, none, none, none⟩]⟩ := by
    simp [processTable, mapRows, mapRow, mapRowAux, applyHeader,
      get_cell_content_as_string, get_cell_content]
    rfl
  rw [hL, hR] at h
  simp at h

/-! ### Section eligibility -/

theorem sectionFlag_append (a b : List Node) :
    ∀ flag, sectionFlag flag (a ++ b) = sectionFlag (sectionFlag flag a) b := by
  induction a with
  | nil => intro flag; rfl
  | cons n rest ih => intro flag; cases n <;> simp [sectionFlag, ih]

theorem sectionFlag_markerless :
    ∀ (post : List Node) (flag : Bool),
    (∀ w, Node.text w ∈ post →
      strContains w availableMarker = false ∧ strContains w expiredMarker = false) →
    sectionFlag flag post = flag := by
  intro post
  induction post with
  | nil => intro flag _; rfl
  | cons n rest ih =>
    intro flag h
    cases n with
    | text w =>
      have hw := h w (List.mem_cons_self _ _)
      have hupd : updateAfterAvailable flag w = flag := by
        unfold updateAfterAvailable; simp [hw.1, hw.2]
      simp only [sectionFlag, hupd]
      exact ih flag (fun u hu => h u (List.mem_cons_of_mem _ hu))
    | table rows =>
      simp only [sectionFlag]
      exact ih flag (fun u hu => h u (List.mem_cons_of_mem _ hu))
    | link target t =>
      simp only [sectionFlag]
      exact ih flag (fun u hu => h u (List.mem_cons_of_mem _ hu))
    | other =>
      simp only [sectionFlag]
      exact ih flag (fun u hu => h u (List.mem_cons_of_mem _ hu))

theorem fromLoop_append_noTable :
    ∀ (pre : List Node) (flag : Bool) (rest : List Node),
    (∀ r, ¬ Node.table r ∈ pre) →
    fromLoop flag (pre ++ rest) = fromLoop (sectionFlag flag pre) rest := by
  intro pre
  induction pre with
  | nil => intro flag rest _; rfl
  | cons n p ih =>
    intro flag rest h
    cases n with
    | text v =>
      simp only [List.cons_append, fromLoop, sectionFlag]
      exact ih _ rest (fun r hr => h r (List.mem_cons_of_mem _ hr))
    | table rows => exact absurd (List.mem_cons_self _ _) (h rows)
    | link target t =>
      simp only [List.cons_append, fromLoop, sectionFlag]
      exact ih _ rest (fun r hr => h r (List.mem_cons_of_mem _ hr))
    | other =>
      simp only [List.cons_append, fromLoop, sectionFlag]
      exact ih _ rest (fun r hr => h r (List.mem_cons_of_mem _ hr))

/-- C6 (amended): the inside-section flag is set exactly when the most
recent marker-bearing text node contains the start marker and does not
contain the end marker (the end marker wins inside one text value whatever
the order of the two markers there), and a top-level table preceded by no
other table is extracted exactly when that flag is set at its position. -/
theorem c6_section_eligibility :
    (∀ ns : List Node, sectionFlag false ns = true ↔
      ∃ pre v post, ns = pre ++ Node.text v :: post ∧
        strContains v availableMarker = true ∧ strContains v expiredMarker = false ∧
        ∀ w, Node.text w ∈ post →
          strContains w availableMarker = false ∧ strContains w expiredMarker = false) ∧
    (∀ pre rows post, (∀ r, ¬ Node.table r ∈ pre) →
      PromotionalCodes.fromNodes (pre ++ Node.table rows :: post) =
        if sectionFlag false pre then processTable rows else fromLoop false post) := by
  constructor
  · intro ns
    constructor
    · induction ns using List.reverseRecOn with
      | nil => intro h; simp [sectionFlag] at h
      | append_singleton xs x ih =>
        intro h
        rw [sectionFlag_append] at h
        cases x with
        | text v =>
          have h' : updateAfterAvailable (sectionFlag false xs) v = true := by
            simpa [sectionFlag] using h
          by_cases he : strContains v expiredMarker
          · exfalso; unfold updateAfterAvailable at h'; simp [he] at h'
          · by_cases ha : strContains v availableMarker
            · exact ⟨xs, v, [], by simp, ha, by simpa using he, by simp⟩
            · have hx : sectionFlag false xs = true := by
                unfold updateAfterAvailable at h'
                simpa [he, ha] using h'
              obtain ⟨pre, u, post, hns, h1, h2, hpost⟩ := ih hx
              refine ⟨pre, u, post ++ [Node.text v], by simp [hns], h1, h2, ?_⟩
              intro w hw
              rcases List.mem_append.mp hw with hw1 | hw2
              · exact hpost w hw1
              · simp only [List.mem_singleton, Node.text.injEq] at hw2
                subst hw2
                exact ⟨by simpa using ha, by simpa using he⟩
        | table rows =>
          have hx : sectionFlag false xs = true := by simpa [sectionFlag] using h
          obtain ⟨pre, u, post, hns, h1, h2, hpost⟩ := ih hx
          refine ⟨pre, u, post ++ [Node.table rows], by simp [hns], h1, h2, ?_⟩
          intro w hw
          rcases List.mem_append.mp hw with hw1 | hw2
          · exact hpost w hw1
          · simp at hw2
        | link target t =>
          have hx : sectionFlag false xs = true := by simpa [sectionFlag] using h
          obtain ⟨pre, u, post, hns, h1, h2, hpost⟩ := ih hx
          refine ⟨pre, u, post ++ [Node.link target t], by simp [hns], h1, h2, ?_⟩
          intro w hw
          rcases List.mem_append.mp hw with hw1 | hw2
          · exact hpost w hw1
          · simp at hw2
        | other =>
          have hx : sectionFlag false xs = true := by simpa [sectionFlag] using h
          obtain ⟨pre, u, post, hns, h1, h2, hpost⟩ := ih hx
          refine ⟨pre, u, post ++ [Node.other], by simp [hns], h1, h2, ?_⟩
          intro w hw
          rcases List.mem_append.mp hw with hw1 | hw2
          · exact hpost w hw1
          · simp at hw2
    · rintro ⟨pre, v, post, rfl, h1, h2, hpost⟩
      rw [sectionFlag_append]
      have hcons : sectionFlag (sectionFlag false pre) (Node.text v :: post) =
          sectionFlag (updateAfterAvailable (sectionFlag false pre) v) post := rfl
      have hupd : updateAfterAvailable (sectionFlag false pre) v = true := by
        unfold updateAfterAvailable; simp [h1, h2]
      rw [hcons, hupd]
      exact sectionFlag_markerless post true hpost
  · intro pre rows post hpre
    unfold PromotionalCodes.fromNodes
    rw [fromLoop_append_noTable pre false _ hpre]
    by_cases hf : sectionFlag false pre = true
    · rw [hf]; simp [fromLoop]
    · rw [Bool.not_eq_true] at hf
      rw [hf]; simp [fromLoop]

/-- Witness for C6 at a concrete input: a table directly after a start
marker (flag set, no earlier table) is extracted. -/
theorem c6_witness :
    PromotionalCodes.fromNodes sampleTree =
      processTable [[[Node.text "Code"]], [[Node.text "X"]]] := by
  have h := c6_section_eligibility.2 [Node.text availableMarker]
    [[[Node.text "Code"]], [[Node.text "X"]]] [] (by intro r hr; simp at hr)
  have hflag : sectionFlag false [Node.text availableMarker] = true := rfl
  rw [hflag] at h
  simpa [sampleTree] using h

/-- C6 counterexample: a text value holding the end marker before the start
marker carries a start marker not followed by an end marker, yet the table
after it is not extracted — the code clears the flag on any end marker in
the value, whatever the in-text order. -/
theorem c6_counterexample :
    ¬ (∀ (v : String) (rows : List Row),
        (strContains v availableMarker || strContains v expiredMarker) = true →
        startNotFollowedByEnd v = true →
        PromotionalCodes.fromNodes [Node.text v, Node.table rows] = processTable rows) := by
  intro hclaim
  have h := hclaim "== Expired == and later == Available =="
    [[[Node.text "Code"]], [[Node.text "X"]]] rfl rfl
  have h1 : PromotionalCodes.fromNodes
      [Node.text "== Expired == and later == Available ==",
       Node.table [[[Node.text "Code"]], [[Node.text "X"]]]] = Except.ok ⟨[]⟩ := rfl
  have h2 : processTable [[[Node.text "Code"]], [[Node.text "X"]]] =
      Except.ok ⟨[⟨some "X", none, none, none, none⟩]⟩ := by
    simp [processTable, mapRows, mapRow, mapRowAux, applyHeader,
      get_cell_content_as_string, get_cell_content]
    rfl
  rw [h1, h2] at h
  simp at h

end MonaSpy
